import Mathlib

/-!
# Verification of `btfd.py` (branch discovery, selection and build orchestration)

Shallow embedding of the core of `btfd.py`: discovery of remote version
branches (`Environment.remote_branches`), alias resolution (`stable_branch`,
`master_branch`), selection filtering and manifest generation
(`Environment.update`), the per-branch pipeline (`Branch.update`,
`VersionBranch.update`), publishing (`Branch.copy_docs_dir`) and environment
initialisation (`Environment.create`).

Conventions of the embedding:
* Python strings are `String` / `List Char`; `\d` is modelled as an ASCII
  decimal digit (`Char.isDigit`).
* Filesystem state relevant to publishing is an association list from file
  paths (lists of path segments) to file contents.
* External side effects (git operations, virtualenv creation, pip installs,
  sphinx builds) are recorded as explicit `Step` / `CreateAction` values.
* Python exceptions (the `IndexError` from `remote_branches[-2]`, the
  `Exception('no master branch found')`) are modelled with `Except`.
-/

namespace Btfd

/-- Value of a list of ASCII digit characters read in base 10, as Python's
`int()` computes it on a decimal string (leading zeros allowed). -/
def digitsToNat (ds : List Char) : Nat :=
  ds.foldl (fun n c => 10 * n + (c.toNat - 48)) 0

/-- Fuel-based decimal rendering helper (most significant digit first).
`decAux fuel n` is the decimal rendering of `n` provided `n ≤ fuel`. -/
def decAux : Nat → Nat → List Char
  | _, 0 => []
  | 0, _ + 1 => []
  | fuel + 1, n + 1 =>
    decAux fuel ((n + 1) / 10) ++ [Nat.digitChar ((n + 1) % 10)]

/-- Decimal rendering of a natural number, as Python's `'%d' % n` renders it. -/
def decRender (n : Nat) : List Char :=
  if n = 0 then ['0'] else decAux n n

/-!
## Discovery: parsing remote ref names

`Environment.remote_branches` matches each remote ref name against
`re.match(r'^origin/stable/(\d+)\.(\d+).x$', remote_ref.name)`.

Note that the final dot of the source pattern is NOT escaped: between the
minor-version digit group and the trailing `x`, the pattern accepts any
single character except a newline.  `matchTail` embeds the tail pattern
`(\d+).x$` applied to the text after the (escaped) first dot: Python's
greedy `\d+` with backtracking succeeds exactly when the text has length at
least 3, everything but the last two characters is a digit group (the
capture), the second-to-last character is any non-newline character, and
the last character is `x`.
-/

/-- Embeds the regex tail `(\d+).x$` (dot unescaped, as in the source). -/
def matchTail (t : List Char) : Option (List Char) :=
  if 3 ≤ t.length ∧ (t.take (t.length - 2)).all Char.isDigit = true ∧
      t[t.length - 2]? ≠ some '\n' ∧ t[t.length - 1]? = some 'x'
  then some (t.take (t.length - 2)) else none

/-- Embeds the regex `(\d+)\.(\d+).x$` applied to the text after
`origin/stable/`: a digit group, a literal dot, then the tail pattern. -/
def parseVer (rest : List Char) : Option (Nat × Nat) :=
  let g1 := rest.takeWhile Char.isDigit
  if g1 = [] then none
  else
    match rest.dropWhile Char.isDigit with
    | '.' :: t => (matchTail t).map (fun g2 => (digitsToNat g1, digitsToNat g2))
    | _ => none

/-- The fixed leading text `origin/stable/` of the branch-name pattern. -/
def stableRefHead : List Char :=
  ['o', 'r', 'i', 'g', 'i', 'n', '/', 's', 't', 'a', 'b', 'l', 'e', '/']

/-- Embeds `re.match(r'^origin/stable/(\d+)\.(\d+).x$', name)` together with
the `int()` conversion of the two captured groups. -/
def parseStableRef (name : String) : Option (Nat × Nat) :=
  if stableRefHead.isPrefixOf name.toList then parseVer (name.toList.drop 14)
  else none

/-!
## Data model: branches

`MasterBranch` and `VersionBranch` objects are stateless views; a
`VersionBranch` carries its remote ref name and its `(major, minor)` version
tuple.  Python compares branch objects by identity; distinct remote refs
have distinct names, so structural equality on `(refName, version)` is
faithful.
-/

/-- A `VersionBranch`: remote ref name plus parsed `(major, minor)`. -/
structure VBranch where
  refName : String
  version : Nat × Nat
deriving DecidableEq, Repr

/-- A discovered branch: the `MasterBranch` or a `VersionBranch`. -/
inductive RBranch where
  | master : RBranch
  | version : VBranch → RBranch
deriving DecidableEq, Repr

/-- Python's `<=` on `(major, minor)` tuples: lexicographic comparison. -/
def vle (a b : Nat × Nat) : Prop :=
  a.1 < b.1 ∨ (a.1 = b.1 ∧ a.2 ≤ b.2)

/-- Python's `<` on `(major, minor)` tuples: strict lexicographic comparison. -/
def vlt (a b : Nat × Nat) : Prop :=
  a.1 < b.1 ∨ (a.1 = b.1 ∧ a.2 < b.2)

instance : DecidableRel vle := fun a b => by unfold vle; exact inferInstance

instance : DecidableRel vlt := fun a b => by unfold vlt; exact inferInstance

/-- The sort relation used by `version_branches.sort(key=lambda branch:
branch.version)`: compare branches by their version tuples. -/
def branchLe (a b : VBranch) : Prop := vle a.version b.version

instance : DecidableRel branchLe := fun a b => by unfold branchLe; exact inferInstance

instance : IsTotal VBranch branchLe :=
  ⟨fun a b => by unfold branchLe vle; omega⟩

instance : IsTrans VBranch branchLe :=
  ⟨fun a b c h1 h2 => by unfold branchLe vle at *; omega⟩

/-- The version branches a list of refs gives rise to, in discovery order. -/
def discoveredVBranches (refs : List String) : List VBranch :=
  refs.filterMap (fun r => (parseStableRef r).map (fun v => VBranch.mk r v))

/-- Embeds `Environment.remote_branches`: collect every remote ref matching
the version pattern (in discovery order), sort by `(major, minor)`, append
the master branch; raise `Exception('no master branch found')` when no
`origin/master` ref exists. -/
def remote_branches (refs : List String) : Except String (List RBranch) :=
  let sorted := List.insertionSort branchLe (discoveredVBranches refs)
  if "origin/master" ∈ refs then
    Except.ok (sorted.map RBranch.version ++ [RBranch.master])
  else Except.error "no master branch found"

/-- `version_string`: `'master'` for the master branch, `'%d.%d' %
self.version` for a version branch. -/
def versionString : RBranch → String
  | RBranch.master => "master"
  | RBranch.version vb =>
    String.mk (decRender vb.version.1 ++ '.' :: decRender vb.version.2)

/-- `target_dir_name`: `'latest'` for master, `'v' + version_string` for a
version branch. -/
def target_dir_name : RBranch → String
  | RBranch.master => "latest"
  | RBranch.version vb =>
    String.mk ('v' :: (decRender vb.version.1 ++ '.' :: decRender vb.version.2))

/-- `should_build`: `True` for master, `self.version >= (0, 4)` for a
version branch. -/
def should_build : RBranch → Bool
  | RBranch.master => true
  | RBranch.version vb => decide (vle (0, 4) vb.version)

/-- `Environment.stable_branch = self.remote_branches[-2]`.  Python's
negative indexing raises `IndexError` when the list has fewer than two
elements; that failure is modelled as `none`. -/
def stable_branch (bs : List RBranch) : Option RBranch :=
  if 2 ≤ bs.length then bs[bs.length - 2]? else none

/-- `Environment.master_branch = self.remote_branches[-1]`, `none` standing
for the `IndexError` on an empty list. -/
def master_branch (bs : List RBranch) : Option RBranch :=
  if 1 ≤ bs.length then bs[bs.length - 1]? else none

/-!
## Selection filtering (the `if`/`elif` chain of `Environment.update`)

For each discovered branch, `Environment.update` decides whether to process
it.  The third test, `'stable' in branches and branch == self.stable_branch`,
evaluates `self.stable_branch` (and likewise the fourth evaluates
`self.master_branch`); when that property raises `IndexError` the whole
update run aborts, which is modelled by the `Except.error` case.
-/

/-- One round of the selection `if`/`elif` chain for branch `b`.  Returns
`true` when the branch is processed, `false` when the loop `continue`s. -/
def selectBranch (stableB masterB : Option RBranch) (sel : Option (List String))
    (b : RBranch) : Except String Bool :=
  match sel with
  | none => Except.ok true
  | some toks =>
    if versionString b ∈ toks then Except.ok true
    else if "stable" ∈ toks then
      match stableB with
      | none => Except.error "IndexError: list index out of range"
      | some sb =>
        if b = sb then Except.ok true
        else if "latest" ∈ toks then
          match masterB with
          | none => Except.error "IndexError: list index out of range"
          | some mb => Except.ok (decide (b = mb))
        else Except.ok false
    else if "latest" ∈ toks then
      match masterB with
      | none => Except.error "IndexError: list index out of range"
      | some mb => Except.ok (decide (b = mb))
    else Except.ok false

/-- The selection loop of `Environment.update`: the sub-list of branches that
pass `selectBranch`, in discovery order. -/
def selectList (stableB masterB : Option RBranch) (sel : Option (List String)) :
    List RBranch → Except String (List RBranch)
  | [] => Except.ok []
  | b :: rest =>
    (selectBranch stableB masterB sel b).bind fun s =>
      (selectList stableB masterB sel rest).bind fun r =>
        Except.ok (if s then b :: r else r)

/-- The selection predicate as the spec states it (§4.2): a target is
included iff no selector was given, or its version string appears verbatim,
or the selector contains `"stable"` and the target is the resolved stable
alias, or the selector contains `"latest"` and the target is the resolved
master alias. -/
def specSelected (bs : List RBranch) (sel : Option (List String)) (b : RBranch) :
    Bool :=
  match sel with
  | none => true
  | some toks =>
    decide (versionString b ∈ toks) ||
    (decide ("stable" ∈ toks) && decide (stable_branch bs = some b)) ||
    (decide ("latest" ∈ toks) && decide (master_branch bs = some b))

/-!
## Filesystem model and `copy_docs_dir`

Only the published file tree matters to the publish step.  A filesystem is
an association list from file paths (lists of path segments) to contents.
A "directory" exists when some file path lies under it.
-/

/-- A filesystem: file paths (segment lists) with their contents. -/
abbrev Fs := List (List String × String)

/-- `os.path.exists(root)` for a directory: some file lies under `root`. -/
def treeExists (root : List String) (fs : Fs) : Bool :=
  fs.any (fun e => root.isPrefixOf e.1)

/-- `shutil.rmtree(root)`: remove every file under `root`. -/
def rmtree (root : List String) (fs : Fs) : Fs :=
  fs.filter (fun e => ! root.isPrefixOf e.1)

/-- `shutil.copytree(src, dst)`: add a copy under `dst` of every file under
`src`. -/
def copytree (src dst : List String) (fs : Fs) : Fs :=
  fs ++ (fs.filter (fun e => src.isPrefixOf e.1)).map
    (fun e => (dst ++ e.1.drop src.length, e.2))

/-- Embeds `Branch.copy_docs_dir`: remove the destination tree if it exists,
then copy the built tree there. -/
def copy_docs_dir (src dst : List String) (fs : Fs) : Fs :=
  copytree src dst (if treeExists dst fs then rmtree dst fs else fs)

/-- The files under `root`, with `root` stripped from their paths. -/
def subtree (root : List String) (fs : Fs) : Fs :=
  (fs.filter (fun e => root.isPrefixOf e.1)).map
    (fun e => (e.1.drop root.length, e.2))

/-!
## Per-branch pipeline (`Branch.update` / `VersionBranch.update`)

External commands are recorded as `Step`s; only the published `html` tree is
carried as filesystem state (the git checkouts live elsewhere under the base
path and are not part of `Fs`).
-/

/-- One externally-visible action of the per-branch pipeline. -/
inductive Step where
  | createTracking : Step
  | pullCheckout : Step
  | cloneCheckout : Step
  | createVenv : Step
  | installDeps : Step
  | buildDocs : Step
  | publishMain : Step
  | publishAlias : Step
deriving DecidableEq, Repr

/-- `self.built_html_path` relative to the base path:
`<version_string>/docs/_build/html`. -/
def builtHtmlPathSegs (b : RBranch) : List String :=
  [versionString b, "docs", "_build", "html"]

/-- The published output directory `html/en/<target_dir_name>`. -/
def publishedPathSegs (b : RBranch) : List String :=
  ["html", "en", target_dir_name b]

/-- The alias published directory `html/en/stable`. -/
def stableAliasSegs : List String := ["html", "en", "stable"]

/-- The `VersionBranch.update` prelude: create a local tracking branch if
none exists, then pull or clone the checkout (`update_repo`).  The base
`Branch.update` (used by `MasterBranch`) has no prelude. -/
def branchPre (b : RBranch) (trackingExists checkoutExists : Bool) : List Step :=
  match b with
  | RBranch.master => []
  | RBranch.version _ =>
    (if trackingExists then [] else [Step.createTracking]) ++
    [if checkoutExists then Step.pullCheckout else Step.cloneCheckout]

/-- Virtualenv creation (if missing) followed by dependency installation and
the sphinx build. -/
def branchEnvSteps (venvExists : Bool) : List Step :=
  (if venvExists then [] else [Step.createVenv]) ++
  [Step.installDeps, Step.buildDocs]

/-- Embeds `Branch.update` (with the `VersionBranch.update` prelude for
version branches): sync the checkout; stop if `should_build` is false;
otherwise create the virtualenv if missing, install, build, publish to
`html/en/<target>`, and — comparing against `self.env.stable_branch`, whose
`IndexError` is the error case — publish a duplicate to `html/en/stable`
when this branch is the stable alias. -/
def branchUpdate (bs : List RBranch) (b : RBranch)
    (trackingExists checkoutExists venvExists : Bool) (fs : Fs) :
    Except String (List Step × Fs) :=
  if should_build b = false then
    Except.ok (branchPre b trackingExists checkoutExists, fs)
  else
    let fs1 := copy_docs_dir (builtHtmlPathSegs b) (publishedPathSegs b) fs
    match stable_branch bs with
    | none => Except.error "IndexError: list index out of range"
    | some sb =>
      if b = sb then
        Except.ok (branchPre b trackingExists checkoutExists ++
          branchEnvSteps venvExists ++ [Step.publishMain, Step.publishAlias],
          copy_docs_dir (builtHtmlPathSegs b) stableAliasSegs fs1)
      else
        Except.ok (branchPre b trackingExists checkoutExists ++
          branchEnvSteps venvExists ++ [Step.publishMain], fs1)

/-!
## Manifest generation and `Environment.update`
-/

/-- Python's `list.insert(i, x)`: insert at index `i`, clamping to the end. -/
def pyInsert (i : Nat) (x : α) (l : List α) : List α :=
  l.take i ++ x :: l.drop i

/-- The version branches within a discovered list, in discovery order (a
spec-side projection used to state the manifest property). -/
def versionsOf (bs : List RBranch) : List VBranch :=
  bs.filterMap (fun b => match b with
    | RBranch.version vb => some vb
    | RBranch.master => none)

/-- The `version_list` written to `versions.js`: target directory names of
buildable branches in reversed discovery order, with `'stable'` inserted at
index 1. -/
def versionsList (bs : List RBranch) : List String :=
  pyInsert 1 "stable"
    ((bs.reverse.filter (fun b => should_build b)).map target_dir_name)

/-- `json.dumps` of a plain string (no characters needing escapes occur in
the rendered names). -/
def jsonStr (s : String) : String := "\"" ++ s ++ "\""

/-- `json.dumps` of a list of strings. -/
def jsonRender (l : List String) : String :=
  "[" ++ String.intercalate ", " (l.map jsonStr) ++ "]"

/-- The full text written to `html/versions.js` (a `print` into the file,
hence the trailing newline). -/
def versionsFileContent (bs : List RBranch) : String :=
  "VERSIONS = " ++ jsonRender (versionsList bs) ++ ";\n"

/-- The per-branch loop of `Environment.update`, threading the published
filesystem through each processed branch. -/
def updateBranchesFs (bs : List RBranch)
    (trackingOf checkoutOf venvOf : RBranch → Bool) :
    Fs → List RBranch → Except String Fs
  | fs, [] => Except.ok fs
  | fs, b :: rest =>
    (branchUpdate bs b (trackingOf b) (checkoutOf b) (venvOf b) fs).bind
      fun r => updateBranchesFs bs trackingOf checkoutOf venvOf r.2 rest

/-- Embeds `Environment.update`: discover branches, filter by the selector,
run the per-branch pipeline on each selected branch, then (on every run that
completes) rewrite `versions.js` wholesale.  Returns the processed branches,
the final published filesystem and the manifest text. -/
def update (refs : List String) (sel : Option (List String))
    (trackingOf checkoutOf venvOf : RBranch → Bool) (fs : Fs) :
    Except String (List RBranch × Fs × String) :=
  (remote_branches refs).bind fun bs =>
    (selectList (stable_branch bs) (master_branch bs) sel bs).bind fun processed =>
      (updateBranchesFs bs trackingOf checkoutOf venvOf fs processed).bind fun fs' =>
        Except.ok (processed, fs', versionsFileContent bs)

/-!
## Environment initialisation (`Environment.create`)
-/

/-- An externally-visible action of `Environment.create`. -/
inductive CreateAction where
  | reportSkip : CreateAction
  | makeDir : CreateAction
  | cloneRepo : String → CreateAction
deriving DecidableEq, Repr

/-- Python's `str.split(sep)` for a single-character separator: splits on
every occurrence, keeping empty segments (`''.split('/') == ['']`). -/
def splitOnChar (sep : Char) : List Char → List (List Char)
  | [] => [[]]
  | c :: rest =>
    match splitOnChar sep rest with
    | [] => [[]]
    | g :: gs => if c = sep then [] :: g :: gs else (c :: g) :: gs

/-- `re.sub(r'\.git$', '', s)`: strip one trailing `.git` if present. -/
def stripGitSuffix (cs : List Char) : List Char :=
  if ['t', 'i', 'g', '.'].isPrefixOf cs.reverse then cs.take (cs.length - 4)
  else cs

/-- Path auto-generation: last `/`-separated segment of the URL with a
trailing `.git` stripped. -/
def derivePath (repository_url : String) : String :=
  String.mk (stripGitSuffix ((splitOnChar '/' repository_url.toList).getLastD []))

/-- Embeds `Environment.create`: resolve the base path, then either report
that it already exists (and do nothing else), or create the directory and
clone the repository into it.  Returns the base path and the actions
performed. -/
def create (repository_url : String) (path : Option String) (pathExists : Bool) :
    String × List CreateAction :=
  let p := match path with
    | none => derivePath repository_url
    | some p => p
  if pathExists then (p, [CreateAction.reportSkip])
  else (p, [CreateAction.makeDir, CreateAction.cloneRepo repository_url])

/-!
## Theorems

First, generic helper lemmas; then, per-claim theorems.
-/

theorem Except_bind_ok {ε α β : Type} (a : α) (f : α → Except ε β) :
    Except.bind (Except.ok a) f = f a := rfl

theorem Except_bind_error {ε α β : Type} (e : ε) (f : α → Except ε β) :
    Except.bind (Except.error e) f = Except.error e := rfl

theorem digitsToNat_append_singleton (l : List Char) (c : Char) :
    digitsToNat (l ++ [c]) = 10 * digitsToNat l + (c.toNat - 48) := by
  simp [digitsToNat, List.foldl_append]

theorem digitChar_isDigit {d : Nat} (h : d < 10) :
    (Nat.digitChar d).isDigit = true := by
  interval_cases d <;> decide

theorem digitChar_val {d : Nat} (h : d < 10) :
    (Nat.digitChar d).toNat - 48 = d := by
  interval_cases d <;> decide

theorem decAux_spec : ∀ fuel n, n ≤ fuel →
    digitsToNat (decAux fuel n) = n ∧ ∀ c ∈ decAux fuel n, c.isDigit = true := by
  intro fuel
  induction fuel with
  | zero =>
    intro n hn
    have : n = 0 := Nat.le_zero.mp hn
    subst this
    simp [decAux, digitsToNat]
  | succ fuel ih =>
    intro n hn
    match n with
    | 0 => simp [decAux, digitsToNat]
    | n + 1 =>
      have hdiv : (n + 1) / 10 ≤ fuel := by
        have h1 : (n + 1) / 10 < n + 1 := Nat.div_lt_self (Nat.succ_pos n) (by omega)
        omega
      obtain ⟨ihv, ihd⟩ := ih ((n + 1) / 10) hdiv
      have hmod : (n + 1) % 10 < 10 := Nat.mod_lt _ (by omega)
      constructor
      · rw [decAux, digitsToNat_append_singleton, ihv, digitChar_val hmod]
        omega
      · intro c hc
        rw [decAux] at hc
        rcases List.mem_append.mp hc with h | h
        · exact ihd c h
        · rcases List.mem_singleton.mp h with rfl
          exact digitChar_isDigit hmod

theorem digitsToNat_decRender (n : Nat) : digitsToNat (decRender n) = n := by
  by_cases h : n = 0
  · subst h; decide
  · rw [decRender, if_neg h]
    exact (decAux_spec n n (Nat.le_refl n)).1

theorem decRender_isDigit (n : Nat) : ∀ c ∈ decRender n, c.isDigit = true := by
  by_cases h : n = 0
  · subst h; decide
  · rw [decRender, if_neg h]
    exact (decAux_spec n n (Nat.le_refl n)).2

theorem decRender_ne_nil (n : Nat) : decRender n ≠ [] := by
  by_cases h : n = 0
  · subst h; decide
  · rw [decRender, if_neg h]
    match n, h with
    | n + 1, _ => simp [decAux]

theorem isPrefixOf_append_self [BEq α] [LawfulBEq α] (l t : List α) :
    l.isPrefixOf (l ++ t) = true := by
  induction l with
  | nil => simp
  | cons a as ih => simp [List.isPrefixOf_cons₂, ih]

theorem append_drop_of_isPrefixOf [BEq α] [LawfulBEq α] :
    ∀ {l p : List α}, l.isPrefixOf p = true → p = l ++ p.drop l.length
  | [], _, _ => by simp
  | _ :: _, [], h => absurd h (by simp)
  | a :: as, b :: bs, h => by
    rw [List.isPrefixOf_cons₂, Bool.and_eq_true] at h
    obtain ⟨hab, htail⟩ := h
    have hab' : a = b := eq_of_beq hab
    subst hab'
    simpa using append_drop_of_isPrefixOf htail

theorem isPrefixOf_comparable [BEq α] [LawfulBEq α] :
    ∀ {p l₁ l₂ : List α}, l₁.isPrefixOf p = true → l₂.isPrefixOf p = true →
      l₁.isPrefixOf l₂ = true ∨ l₂.isPrefixOf l₁ = true
  | _, [], _, _, _ => Or.inl (by simp)
  | _, _ :: _, [], _, _ => Or.inr (by simp)
  | [], _ :: _, _ :: _, h1, _ => absurd h1 (by simp)
  | c :: p', a :: as, b :: bs, h1, h2 => by
    rw [List.isPrefixOf_cons₂, Bool.and_eq_true] at h1 h2
    obtain ⟨hac, h1'⟩ := h1
    obtain ⟨hbc, h2'⟩ := h2
    have hac' : a = c := eq_of_beq hac
    have hbc' : b = c := eq_of_beq hbc
    subst hac'; subst hbc'
    rcases isPrefixOf_comparable h1' h2' with h | h
    · exact Or.inl (by simp [List.isPrefixOf_cons₂, h])
    · exact Or.inr (by simp [List.isPrefixOf_cons₂, h])

/-!
### Structure of the discovery result
-/

theorem branchLe_refl (a : VBranch) : branchLe a a := by
  unfold branchLe vle; omega

theorem remote_branches_shape {refs : List String} {bs : List RBranch}
    (h : remote_branches refs = Except.ok bs) :
    ∃ svs : List VBranch,
      bs = svs.map RBranch.version ++ [RBranch.master] ∧
      List.Pairwise branchLe svs ∧
      svs.Perm (discoveredVBranches refs) ∧
      "origin/master" ∈ refs := by
  unfold remote_branches at h
  split at h
  next hm =>
    cases h
    exact ⟨List.insertionSort branchLe (discoveredVBranches refs), rfl,
      List.sorted_insertionSort branchLe _, List.perm_insertionSort branchLe _, hm⟩
  next => exact absurd h (by simp)

theorem version_mem_iff {svs : List VBranch} {vb : VBranch} :
    RBranch.version vb ∈ svs.map RBranch.version ++ [RBranch.master] ↔ vb ∈ svs := by
  simp

theorem pairwise_last_max {l : List VBranch} (hp : List.Pairwise branchLe l)
    (hne : l ≠ []) : ∀ x ∈ l, branchLe x (l.getLast hne) := by
  intro x hx
  have hdec := List.dropLast_concat_getLast hne
  rw [← hdec] at hp hx
  rcases List.mem_append.mp hx with hmem | hmem
  · exact (List.pairwise_append.mp hp).2.2 x hmem _ (List.mem_singleton_self _)
  · rcases List.mem_singleton.mp hmem with rfl
    exact branchLe_refl _

theorem master_branch_shape (svs : List VBranch) :
    master_branch (svs.map RBranch.version ++ [RBranch.master]) =
      some RBranch.master := by
  unfold master_branch
  have h1 : 1 ≤ (svs.map RBranch.version ++ [RBranch.master]).length := by simp
  rw [if_pos h1]
  have h2 : (svs.map RBranch.version ++ [RBranch.master]).length - 1 =
      (svs.map RBranch.version).length := by simp
  rw [h2, List.getElem?_append_right (Nat.le_refl _)]
  simp

theorem stable_branch_shape (svs : List VBranch) (hne : svs ≠ []) :
    stable_branch (svs.map RBranch.version ++ [RBranch.master]) =
      some (RBranch.version (svs.getLast hne)) := by
  unfold stable_branch
  have hpos : 0 < svs.length := List.length_pos.mpr hne
  have hlen : (svs.map RBranch.version ++ [RBranch.master]).length =
      svs.length + 1 := by simp
  rw [if_pos (by omega)]
  have hidx : (svs.map RBranch.version ++ [RBranch.master]).length - 2 =
      svs.length - 1 := by omega
  rw [hidx, List.getElem?_append_left (by simpa using by omega)]
  have hlt : svs.length - 1 < svs.length := by omega
  rw [List.getElem?_map, List.getElem?_eq_getElem hlt]
  simp [List.getLast_eq_getElem]

/-!
### Selection lemmas
-/

theorem selectBranch_eq (bs : List RBranch) (sel : Option (List String))
    {sb mb : RBranch} (hsb : stable_branch bs = some sb)
    (hmb : master_branch bs = some mb) (b : RBranch) :
    selectBranch (stable_branch bs) (master_branch bs) sel b =
      Except.ok (specSelected bs sel b) := by
  rw [hsb, hmb]
  unfold selectBranch specSelected
  cases sel with
  | none => rfl
  | some toks =>
    rw [hsb, hmb]
    by_cases h1 : versionString b ∈ toks
    · simp [h1]
    · by_cases h2 : "stable" ∈ toks
      · by_cases h3 : b = sb
        · subst h3; simp [h1, h2]
        · have h3' : ¬ (sb = b) := fun hc => h3 hc.symm
          by_cases h4 : "latest" ∈ toks
          · simp [h1, h2, h3, h3', h4, eq_comm]
          · simp [h1, h2, h3, h3', h4]
      · by_cases h4 : "latest" ∈ toks
        · simp [h1, h2, h4, eq_comm]
        · simp [h1, h2, h4]

theorem selectList_eq_filter (bs : List RBranch) (sel : Option (List String))
    {sb mb : RBranch} (hsb : stable_branch bs = some sb)
    (hmb : master_branch bs = some mb) :
    ∀ l, selectList (stable_branch bs) (master_branch bs) sel l =
      Except.ok (l.filter (specSelected bs sel)) := by
  intro l
  induction l with
  | nil => rfl
  | cons b rest ih =>
    rw [selectList, selectBranch_eq bs sel hsb hmb b, Except_bind_ok, ih,
      Except_bind_ok]
    cases hb : specSelected bs sel b <;> simp [List.filter_cons, hb]

theorem should_build_true_of_not_false {b : RBranch}
    (h : ¬ should_build b = false) : should_build b = true := by
  revert h
  cases should_build b <;> simp

theorem branchUpdate_skip (bs : List RBranch) (b : RBranch) (tr co ve : Bool)
    (fs : Fs) (hsbuild : should_build b = false) :
    branchUpdate bs b tr co ve fs = Except.ok (branchPre b tr co, fs) := by
  unfold branchUpdate
  rw [if_pos hsbuild]

theorem branchUpdate_build_stable (bs : List RBranch) (b : RBranch)
    (tr co ve : Bool) (fs : Fs) (hsbuild : should_build b = true)
    (hsb : stable_branch bs = some b) :
    branchUpdate bs b tr co ve fs =
      Except.ok (branchPre b tr co ++ branchEnvSteps ve ++
        [Step.publishMain, Step.publishAlias],
        copy_docs_dir (builtHtmlPathSegs b) stableAliasSegs
          (copy_docs_dir (builtHtmlPathSegs b) (publishedPathSegs b) fs)) := by
  unfold branchUpdate
  rw [if_neg (by rw [hsbuild]; simp)]
  simp [hsb]

theorem branchUpdate_build_other (bs : List RBranch) (b sb : RBranch)
    (tr co ve : Bool) (fs : Fs) (hsbuild : should_build b = true)
    (hsb : stable_branch bs = some sb) (hne : b ≠ sb) :
    branchUpdate bs b tr co ve fs =
      Except.ok (branchPre b tr co ++ branchEnvSteps ve ++ [Step.publishMain],
        copy_docs_dir (builtHtmlPathSegs b) (publishedPathSegs b) fs) := by
  unfold branchUpdate
  rw [if_neg (by rw [hsbuild]; simp)]
  simp only [hsb]
  rw [if_neg hne]

theorem branchUpdate_ok (bs : List RBranch) (b : RBranch) (tr co ve : Bool)
    (fs : Fs) {sb : RBranch} (hsb : stable_branch bs = some sb) :
    ∃ r, branchUpdate bs b tr co ve fs = Except.ok r := by
  by_cases hsbuild : should_build b = false
  · exact ⟨_, branchUpdate_skip bs b tr co ve fs hsbuild⟩
  · have hsbuild' := should_build_true_of_not_false hsbuild
    by_cases hbsb : b = sb
    · subst hbsb
      exact ⟨_, branchUpdate_build_stable bs b tr co ve fs hsbuild' hsb⟩
    · exact ⟨_, branchUpdate_build_other bs b sb tr co ve fs hsbuild' hsb hbsb⟩

theorem updateBranchesFs_ok (bs : List RBranch) (tOf cOf vOf : RBranch → Bool)
    {sb : RBranch} (hsb : stable_branch bs = some sb) :
    ∀ (l : List RBranch) (fs : Fs),
      ∃ fs', updateBranchesFs bs tOf cOf vOf fs l = Except.ok fs' := by
  intro l
  induction l with
  | nil => exact fun fs => ⟨fs, rfl⟩
  | cons b rest ih =>
    intro fs
    obtain ⟨⟨steps, fs1⟩, hb⟩ := branchUpdate_ok bs b (tOf b) (cOf b) (vOf b) fs hsb
    obtain ⟨fs', hrest⟩ := ih fs1
    exact ⟨fs', by rw [updateBranchesFs, hb, Except_bind_ok]; exact hrest⟩

theorem update_eq (refs : List String) (sel : Option (List String))
    (tOf cOf vOf : RBranch → Bool) (fs : Fs) (bs processed : List RBranch)
    (fs' : Fs) (h : remote_branches refs = Except.ok bs)
    (hp : selectList (stable_branch bs) (master_branch bs) sel bs =
      Except.ok processed)
    (hf : updateBranchesFs bs tOf cOf vOf fs processed = Except.ok fs') :
    update refs sel tOf cOf vOf fs =
      Except.ok (processed, fs', versionsFileContent bs) := by
  unfold update
  rw [h, Except_bind_ok, hp, Except_bind_ok, hf, Except_bind_ok]

/-!
### Claim C1 (corrected)
-/

/-- C1, amended: provided at least one stable-line branch was discovered,
`Environment.update` processes exactly the branches satisfying the spec's
selection disjunction (`specSelected`) — no selector, verbatim version
string, `"stable"` alias, or `"latest"` alias — in discovery order, and
raises no error: selector tokens matching nothing are silently ignored.
(`C1_counterexample` shows the unamended "no error is raised" part fails
when no stable-line branch exists.) -/
theorem C1_selection_filter (refs : List String) (sel : Option (List String))
    (bs : List RBranch) (tOf cOf vOf : RBranch → Bool) (fs : Fs)
    (h : remote_branches refs = Except.ok bs)
    (hv : ∃ vb, RBranch.version vb ∈ bs) :
    ∃ fs' m, update refs sel tOf cOf vOf fs =
      Except.ok (bs.filter (specSelected bs sel), fs', m) := by
  obtain ⟨svs, hbs, hsort, hperm, hm⟩ := remote_branches_shape h
  obtain ⟨vb0, hvb0⟩ := hv
  have hne : svs ≠ [] := by
    intro hnil
    rw [hbs, hnil] at hvb0
    simp at hvb0
  have hsb : stable_branch bs = some (RBranch.version (svs.getLast hne)) := by
    rw [hbs]; exact stable_branch_shape svs hne
  have hmb : master_branch bs = some RBranch.master := by
    rw [hbs]; exact master_branch_shape svs
  obtain ⟨fs', hfs⟩ :=
    updateBranchesFs_ok bs tOf cOf vOf hsb (bs.filter (specSelected bs sel)) fs
  exact ⟨fs', versionsFileContent bs,
    update_eq refs sel tOf cOf vOf fs bs _ fs' h
      (selectList_eq_filter bs sel hsb hmb bs) hfs⟩

/-- C1, counterexample to the claim as stated: with a discovered branch list
containing no stable-line branch, the selector token `"stable"` matches no
branch, yet `Environment.update` is not silent — resolving
`self.stable_branch` (`remote_branches[-2]` on a one-element list) raises
`IndexError` instead of ignoring the token. -/
theorem C1_counterexample :
    remote_branches ["origin/master"] = Except.ok [RBranch.master] ∧
    update ["origin/master"] (some ["stable"]) (fun _ => true) (fun _ => true)
      (fun _ => true) [] =
      Except.error "IndexError: list index out of range" :=
  ⟨rfl, rfl⟩

/-- Witness for `C1_selection_filter`: a selector with the `"stable"` alias
and an unmatched token `"9.9"` processes exactly the `1.2` stable branch. -/
theorem C1_selection_filter_witness :
    ∃ fs' m, update ["origin/stable/1.2.x", "origin/master"]
      (some ["stable", "9.9"]) (fun _ => true) (fun _ => true) (fun _ => true)
      [] =
      Except.ok ([RBranch.version ⟨"origin/stable/1.2.x", (1, 2)⟩], fs', m) :=
  C1_selection_filter ["origin/stable/1.2.x", "origin/master"]
    (some ["stable", "9.9"])
    [RBranch.version ⟨"origin/stable/1.2.x", (1, 2)⟩, RBranch.master]
    (fun _ => true) (fun _ => true) (fun _ => true) [] rfl
    ⟨⟨"origin/stable/1.2.x", (1, 2)⟩, by decide⟩

/-!
### Claim C2 (confirmed)
-/

/-- C2: after discovery, the master alias resolves to the trunk branch and
the stable alias resolves to a discovered stable-line branch whose version
is greatest among all discovered stable lines — never a hard-coded version,
so adding a new stable line changes what `stable` resolves to. -/
theorem C2_alias_resolution (refs : List String) (bs : List RBranch)
    (h : remote_branches refs = Except.ok bs)
    (hv : ∃ vb, RBranch.version vb ∈ bs) :
    master_branch bs = some RBranch.master ∧
    ∃ sb : VBranch, stable_branch bs = some (RBranch.version sb) ∧
      RBranch.version sb ∈ bs ∧
      ∀ vb : VBranch, RBranch.version vb ∈ bs → vle vb.version sb.version := by
  obtain ⟨svs, hbs, hsort, hperm, hm⟩ := remote_branches_shape h
  obtain ⟨vb0, hvb0⟩ := hv
  have hne : svs ≠ [] := by
    intro hnil
    rw [hbs, hnil] at hvb0
    simp at hvb0
  subst hbs
  refine ⟨master_branch_shape svs, svs.getLast hne, stable_branch_shape svs hne,
    version_mem_iff.mpr (List.getLast_mem hne), ?_⟩
  intro vb hvb
  exact pairwise_last_max hsort hne vb (version_mem_iff.mp hvb)

/-- Witness for `C2_alias_resolution` at a concrete two-line discovery. -/
theorem C2_alias_resolution_witness :
    master_branch [RBranch.version ⟨"origin/stable/1.2.x", (1, 2)⟩,
        RBranch.version ⟨"origin/stable/2.0.x", (2, 0)⟩, RBranch.master] =
      some RBranch.master ∧
    ∃ sb : VBranch,
      stable_branch [RBranch.version ⟨"origin/stable/1.2.x", (1, 2)⟩,
          RBranch.version ⟨"origin/stable/2.0.x", (2, 0)⟩, RBranch.master] =
        some (RBranch.version sb) ∧
      RBranch.version sb ∈ [RBranch.version ⟨"origin/stable/1.2.x", (1, 2)⟩,
          RBranch.version ⟨"origin/stable/2.0.x", (2, 0)⟩, RBranch.master] ∧
      ∀ vb : VBranch,
        RBranch.version vb ∈ [RBranch.version ⟨"origin/stable/1.2.x", (1, 2)⟩,
            RBranch.version ⟨"origin/stable/2.0.x", (2, 0)⟩, RBranch.master] →
        vle vb.version sb.version :=
  C2_alias_resolution
    ["origin/stable/2.0.x", "origin/stable/1.2.x", "origin/master"]
    [RBranch.version ⟨"origin/stable/1.2.x", (1, 2)⟩,
      RBranch.version ⟨"origin/stable/2.0.x", (2, 0)⟩, RBranch.master]
    rfl ⟨⟨"origin/stable/1.2.x", (1, 2)⟩, by decide⟩

/-!
### Claim C3 (confirmed)
-/

/-- C3: discovery sorts version branches ascending by the numeric
`(major, minor)` pair and appends the trunk branch last; in particular the
refs `stable/1.9.x`, `stable/1.10.x`, `stable/1.2.x` resolve to the order
`1.2, 1.9, 1.10` (numeric, not lexical). -/
theorem C3_numeric_sort :
    (∀ refs bs, remote_branches refs = Except.ok bs →
      ∃ svs : List VBranch, bs = svs.map RBranch.version ++ [RBranch.master] ∧
        List.Pairwise (fun a b => vle a.version b.version) svs) ∧
    remote_branches ["origin/stable/1.9.x", "origin/stable/1.10.x",
        "origin/stable/1.2.x", "origin/master"] =
      Except.ok [RBranch.version ⟨"origin/stable/1.2.x", (1, 2)⟩,
        RBranch.version ⟨"origin/stable/1.9.x", (1, 9)⟩,
        RBranch.version ⟨"origin/stable/1.10.x", (1, 10)⟩,
        RBranch.master] := by
  constructor
  · intro refs bs h
    obtain ⟨svs, hbs, hsort, _, _⟩ := remote_branches_shape h
    exact ⟨svs, hbs, hsort⟩
  · rfl

/-- Witness for `C3_numeric_sort` (its first part has a hypothesis). -/
theorem C3_numeric_sort_witness :
    ∃ svs : List VBranch,
      [RBranch.version ⟨"origin/stable/0.8.x", (0, 8)⟩, RBranch.master] =
        svs.map RBranch.version ++ [RBranch.master] ∧
      List.Pairwise (fun a b => vle a.version b.version) svs :=
  C3_numeric_sort.1 ["origin/stable/0.8.x", "origin/master"]
    [RBranch.version ⟨"origin/stable/0.8.x", (0, 8)⟩, RBranch.master] rfl

/-!
### Parsing lemmas for the round-trip claim
-/

theorem takeWhile_append_all {α} (p : α → Bool) :
    ∀ (a : List α), (∀ c ∈ a, p c = true) → ∀ (b : α), p b = false →
      ∀ r, (a ++ b :: r).takeWhile p = a ∧ (a ++ b :: r).dropWhile p = b :: r := by
  intro a
  induction a with
  | nil =>
    intro _ b hb r
    have hb' : ¬ p b = true := by simp [hb]
    constructor
    · simpa using List.takeWhile_cons_of_neg (l := r) hb'
    · simpa using List.dropWhile_cons_of_neg (l := r) hb'
  | cons x xs ih =>
    intro ha b hb r
    have hx : p x = true := ha x (List.mem_cons_self x xs)
    have hxs : ∀ c ∈ xs, p c = true := fun c hc => ha c (List.mem_cons_of_mem x hc)
    obtain ⟨ht, hd⟩ := ih hxs b hb r
    constructor
    · simpa [List.takeWhile_cons_of_pos hx] using ht
    · simpa [List.dropWhile_cons_of_pos hx] using hd

theorem matchTail_digits {g : List Char} (hg : g ≠ [])
    (hd : ∀ ch ∈ g, ch.isDigit = true) {c : Char} (hc : c ≠ '\n') :
    matchTail (g ++ [c, 'x']) = some g := by
  have hpos : 0 < g.length := List.length_pos.mpr hg
  have hlen : (g ++ [c, 'x']).length = g.length + 2 := by simp
  have hidx : (g ++ [c, 'x']).length - 2 = g.length := by omega
  have htake : (g ++ [c, 'x']).take ((g ++ [c, 'x']).length - 2) = g := by
    rw [hidx]
    exact List.take_left g [c, 'x']
  have hget1 : (g ++ [c, 'x'])[(g ++ [c, 'x']).length - 2]? = some c := by
    rw [hidx, List.getElem?_append_right (Nat.le_refl _)]
    simp
  have hget2 : (g ++ [c, 'x'])[(g ++ [c, 'x']).length - 1]? = some 'x' := by
    have h1 : (g ++ [c, 'x']).length - 1 = g.length + 1 := by omega
    rw [h1, List.getElem?_append_right (by omega)]
    have h2 : g.length + 1 - g.length = 1 := by omega
    rw [h2]
    rfl
  unfold matchTail
  rw [if_pos ⟨by omega, by rw [htake]; exact List.all_eq_true.mpr hd,
    by rw [hget1]; simp [hc], hget2⟩]
  rw [htake]

theorem parseVer_render (m n : Nat) :
    parseVer (decRender m ++ '.' :: (decRender n ++ ['.', 'x'])) =
      some (m, n) := by
  obtain ⟨htake, hdrop⟩ := takeWhile_append_all Char.isDigit (decRender m)
    (decRender_isDigit m) '.' (by decide) (decRender n ++ ['.', 'x'])
  unfold parseVer
  rw [htake, hdrop, if_neg (decRender_ne_nil m)]
  have hmt : matchTail (decRender n ++ ['.', 'x']) = some (decRender n) :=
    matchTail_digits (decRender_ne_nil n) (decRender_isDigit n) (by decide)
  show Option.map (fun g2 => (digitsToNat (decRender m), digitsToNat g2))
    (matchTail (decRender n ++ ['.', 'x'])) = some (m, n)
  rw [hmt]
  simp [digitsToNat_decRender]

theorem parseStableRef_render (m n : Nat) :
    parseStableRef (String.mk (stableRefHead ++
      (decRender m ++ '.' :: (decRender n ++ ['.', 'x'])))) = some (m, n) := by
  unfold parseStableRef
  have htl : (String.mk (stableRefHead ++
      (decRender m ++ '.' :: (decRender n ++ ['.', 'x'])))).toList =
      stableRefHead ++ (decRender m ++ '.' :: (decRender n ++ ['.', 'x'])) := rfl
  rw [htl, if_pos (isPrefixOf_append_self stableRefHead _),
    List.drop_left' (by rfl)]
  exact parseVer_render m n

/-!
### Claim C4 (code bug)
-/

/-- C4: the code's regex `^origin/stable/(\d+)\.(\d+).x$` leaves the dot
before the final `x` unescaped, so — contrary to the claim and to the
comment in the source (`matching the format origin/stable/N.N.x`) — a name
with any character in place of the second dot, such as
`origin/stable/1.2qx`, is also accepted and produces a version target. -/
theorem C4_unescaped_dot :
    parseStableRef "origin/stable/1.2.x" = some (1, 2) ∧
    parseStableRef "origin/stable/1.2qx" = some (1, 2) :=
  ⟨rfl, rfl⟩

/-!
### Claim C5 (corrected)
-/

/-- C5, counterexample to the claim as stated: the ref name
`origin/stable/01.2.x` matches the pattern (its major group `01` is a valid
`\d+`), is discovered as version `(1, 2)`, but renders back as `"1.2"`,
which is not the `M.N` portion `"01.2"` of the original name. -/
theorem C5_counterexample :
    parseStableRef "origin/stable/01.2.x" = some (1, 2) ∧
    versionString (RBranch.version ⟨"origin/stable/01.2.x", (1, 2)⟩) = "1.2" ∧
    ("1.2" : String) ≠ "01.2" :=
  ⟨rfl, rfl, by decide⟩

/-- C5, amended: for every discovered ref name of the form
`origin/stable/<M>.<N>.x` whose digit groups are canonical decimal
renderings (no leading zeros), parsing yields exactly `(M, N)` and the
rendered version string reproduces exactly the `M.N` portion of the name. -/
theorem C5_roundtrip (m n : Nat) :
    parseStableRef (String.mk (stableRefHead ++
      (decRender m ++ '.' :: (decRender n ++ ['.', 'x'])))) = some (m, n) ∧
    versionString (RBranch.version
      ⟨String.mk (stableRefHead ++
        (decRender m ++ '.' :: (decRender n ++ ['.', 'x']))), (m, n)⟩) =
      String.mk (decRender m ++ '.' :: decRender n) :=
  ⟨parseStableRef_render m n, rfl⟩

/-!
### Claim C6 (confirmed)
-/

/-- C6: `should_build` is false exactly for stable-line versions with
`(major, minor) < (0, 4)` and true for every other target (the trunk
included); and for such a below-floor version branch, `Branch.update`
returns right after the checkout-sync prelude: the result contains no
virtualenv creation, no dependency install, no docs build and no publish
step, and the published file tree is returned untouched. -/
theorem C6_should_build_floor :
    (∀ b : RBranch, should_build b = false ↔
      ∃ vb, b = RBranch.version vb ∧ vlt vb.version (0, 4)) ∧
    (∀ (bs : List RBranch) (vb : VBranch) (tr co ve : Bool) (fs : Fs),
      vlt vb.version (0, 4) →
      ∃ steps, branchUpdate bs (RBranch.version vb) tr co ve fs =
        Except.ok (steps, fs) ∧
        ∀ s ∈ steps, s ≠ Step.createVenv ∧ s ≠ Step.installDeps ∧
          s ≠ Step.buildDocs ∧ s ≠ Step.publishMain ∧ s ≠ Step.publishAlias) := by
  constructor
  · intro b
    cases b with
    | master => simp [should_build]
    | version vb =>
      simp only [should_build, decide_eq_false_iff_not, RBranch.version.injEq]
      constructor
      · intro hnle
        exact ⟨vb, rfl, by unfold vle vlt at *; omega⟩
      · rintro ⟨vb', rfl, hlt⟩
        unfold vle vlt at *; omega
  · intro bs vb tr co ve fs hv
    have hnle : ¬ vle (0, 4) vb.version := by unfold vle vlt at *; omega
    have hsb : should_build (RBranch.version vb) = false := by
      simp [should_build, hnle]
    refine ⟨branchPre (RBranch.version vb) tr co,
      branchUpdate_skip bs (RBranch.version vb) tr co ve fs hsb, ?_⟩
    have hmem : ∀ s ∈ branchPre (RBranch.version vb) tr co,
        s = Step.createTracking ∨ s = Step.pullCheckout ∨
          s = Step.cloneCheckout := by
      intro s hs
      unfold branchPre at hs
      cases tr <;> cases co <;> simp at hs <;> tauto
    intro s hs
    rcases hmem s hs with rfl | rfl | rfl <;>
      exact ⟨by decide, by decide, by decide, by decide, by decide⟩

/-- Witness for `C6_should_build_floor` (second part) at version `0.3`. -/
theorem C6_should_build_floor_witness :
    ∃ steps, branchUpdate [] (RBranch.version ⟨"origin/stable/0.3.x", (0, 3)⟩)
      true true true [] = Except.ok (steps, ([] : Fs)) ∧
      ∀ s ∈ steps, s ≠ Step.createVenv ∧ s ≠ Step.installDeps ∧
        s ≠ Step.buildDocs ∧ s ≠ Step.publishMain ∧ s ≠ Step.publishAlias :=
  C6_should_build_floor.2 [] ⟨"origin/stable/0.3.x", (0, 3)⟩ true true true []
    (by decide)

/-!
### Filesystem lemmas for the publish step
-/

theorem no_dst_after_rmtree (dst : List String) (fs : Fs) :
    ∀ e ∈ (if treeExists dst fs then rmtree dst fs else fs),
      dst.isPrefixOf e.1 = false := by
  split
  · intro e he
    have hmem := List.mem_filter.mp he
    simpa using hmem.2
  · next hne =>
    intro e he
    have hany : fs.any (fun e => dst.isPrefixOf e.1) = false := by
      revert hne
      unfold treeExists
      cases fs.any (fun e => dst.isPrefixOf e.1) <;> simp
    exact Bool.eq_false_iff.mpr (List.any_eq_false.mp hany e he)

theorem subtree_filter_keep (q : List String) (fs : Fs)
    (p : List String × String → Bool)
    (h : ∀ e ∈ fs, q.isPrefixOf e.1 = true → p e = true) :
    subtree q (fs.filter p) = subtree q fs := by
  unfold subtree
  rw [List.filter_filter]
  congr 1
  apply List.filter_congr
  intro e he
  cases hq : q.isPrefixOf e.1 with
  | false => simp
  | true => simp [h e he hq]

theorem subtree_pre_rmtree (q dst : List String) (fs : Fs)
    (hcomp : ∀ e ∈ fs, q.isPrefixOf e.1 = true → dst.isPrefixOf e.1 = false) :
    subtree q (if treeExists dst fs then rmtree dst fs else fs) =
      subtree q fs := by
  split
  · unfold rmtree
    apply subtree_filter_keep
    intro e he hq
    simp [hcomp e he hq]
  · rfl

theorem incomparable_not_both {q dst p : List String}
    (h1 : q.isPrefixOf dst = false) (h2 : dst.isPrefixOf q = false)
    (hq : q.isPrefixOf p = true) : dst.isPrefixOf p = false := by
  cases hd : dst.isPrefixOf p with
  | false => rfl
  | true =>
    rcases isPrefixOf_comparable hq hd with h | h
    · rw [h] at h1; exact absurd h1 (by simp)
    · rw [h] at h2; exact absurd h2 (by simp)

theorem subtree_copy_docs_dir_self (src dst : List String) (fs : Fs)
    (h1 : src.isPrefixOf dst = false) (h2 : dst.isPrefixOf src = false) :
    subtree dst (copy_docs_dir src dst fs) = subtree src fs := by
  unfold copy_docs_dir copytree
  have hA := no_dst_after_rmtree dst fs
  have hsrc0 : subtree src (if treeExists dst fs then rmtree dst fs else fs) =
      subtree src fs :=
    subtree_pre_rmtree src dst fs
      (fun e _ hq => incomparable_not_both h1 h2 hq)
  generalize hfs0 : (if treeExists dst fs then rmtree dst fs else fs) = fs0 at hA hsrc0
  unfold subtree
  rw [List.filter_append]
  have hleft : fs0.filter (fun e => dst.isPrefixOf e.1) = [] :=
    List.filter_eq_nil_iff.mpr (fun e he => by simp [hA e he])
  have hright :
      ((fs0.filter (fun e => src.isPrefixOf e.1)).map
        (fun e => (dst ++ e.1.drop src.length, e.2))).filter
          (fun e => dst.isPrefixOf e.1) =
      (fs0.filter (fun e => src.isPrefixOf e.1)).map
        (fun e => (dst ++ e.1.drop src.length, e.2)) := by
    apply List.filter_eq_self.mpr
    intro e he
    obtain ⟨e0, _, rfl⟩ := List.mem_map.mp he
    exact isPrefixOf_append_self dst _
  rw [hleft, hright, List.nil_append, List.map_map]
  have hmap : List.map ((fun e : List String × String =>
        (List.drop dst.length e.1, e.2)) ∘
      fun e : List String × String => (dst ++ List.drop src.length e.1, e.2))
      (List.filter (fun e => src.isPrefixOf e.1) fs0) =
      List.map (fun e : List String × String => (List.drop src.length e.1, e.2))
      (List.filter (fun e => src.isPrefixOf e.1) fs0) := by
    apply List.map_congr_left
    intro e he
    simp [List.drop_left]
  rw [hmap]
  have hsrc0' := hsrc0
  unfold subtree at hsrc0'
  exact hsrc0'

theorem subtree_copy_docs_dir_other (src dst q : List String) (fs : Fs)
    (hq1 : dst.isPrefixOf q = false) (hq2 : q.isPrefixOf dst = false) :
    subtree q (copy_docs_dir src dst fs) = subtree q fs := by
  unfold copy_docs_dir copytree
  have hq0 : subtree q (if treeExists dst fs then rmtree dst fs else fs) =
      subtree q fs :=
    subtree_pre_rmtree q dst fs
      (fun e _ hq => incomparable_not_both hq2 hq1 hq)
  generalize hfs0 : (if treeExists dst fs then rmtree dst fs else fs) = fs0 at hq0
  unfold subtree
  rw [List.filter_append]
  have hright :
      ((fs0.filter (fun e => src.isPrefixOf e.1)).map
        (fun e => (dst ++ e.1.drop src.length, e.2))).filter
          (fun e => q.isPrefixOf e.1) = [] := by
    apply List.filter_eq_nil_iff.mpr
    intro e he
    obtain ⟨e0, _, rfl⟩ := List.mem_map.mp he
    have hd : dst.isPrefixOf (dst ++ e0.1.drop src.length) = true :=
      isPrefixOf_append_self dst _
    intro hqp
    have := incomparable_not_both hq2 hq1 hqp
    rw [this] at hd
    exact absurd hd (by simp)
  rw [hright, List.append_nil]
  exact hq0

/-!
### Path disjointness facts
-/

theorem versionString_ne_html (b : RBranch) : versionString b ≠ "html" := by
  cases b with
  | master => decide
  | version vb =>
    intro h
    have hdata : decRender vb.version.1 ++ '.' :: decRender vb.version.2 =
        "html".data := congrArg String.data h
    have hh : "html".data = ['h', 't', 'm', 'l'] := rfl
    rw [hh] at hdata
    obtain ⟨hd, tl, hdt⟩ : ∃ hd tl, decRender vb.version.1 = hd :: tl := by
      cases hx : decRender vb.version.1 with
      | nil => exact absurd hx (decRender_ne_nil _)
      | cons hd tl => exact ⟨hd, tl, rfl⟩
    rw [hdt] at hdata
    simp only [List.cons_append, List.cons.injEq] at hdata
    have hdig : hd.isDigit = true :=
      decRender_isDigit _ hd (by rw [hdt]; exact List.mem_cons_self hd tl)
    rw [hdata.1] at hdig
    exact absurd hdig (by decide)

theorem target_dir_name_ne_stable (b : RBranch) :
    target_dir_name b ≠ "stable" := by
  cases b with
  | master => decide
  | version vb =>
    intro h
    have hdata : 'v' :: (decRender vb.version.1 ++ '.' :: decRender vb.version.2) =
        "stable".data := congrArg String.data h
    have hh : "stable".data = ['s', 't', 'a', 'b', 'l', 'e'] := rfl
    rw [hh] at hdata
    simp at hdata

theorem built_published_incomparable (b : RBranch) :
    (builtHtmlPathSegs b).isPrefixOf (publishedPathSegs b) = false ∧
    (publishedPathSegs b).isPrefixOf (builtHtmlPathSegs b) = false := by
  unfold builtHtmlPathSegs publishedPathSegs
  constructor
  · rw [List.isPrefixOf_cons₂]
    simp [versionString_ne_html b]
  · rw [List.isPrefixOf_cons₂]
    simp [Ne.symm (versionString_ne_html b)]

theorem built_alias_incomparable (b : RBranch) :
    (builtHtmlPathSegs b).isPrefixOf stableAliasSegs = false ∧
    stableAliasSegs.isPrefixOf (builtHtmlPathSegs b) = false := by
  unfold builtHtmlPathSegs stableAliasSegs
  constructor
  · rw [List.isPrefixOf_cons₂]
    simp [versionString_ne_html b]
  · rw [List.isPrefixOf_cons₂]
    simp [Ne.symm (versionString_ne_html b)]

theorem published_alias_incomparable (b : RBranch) :
    (publishedPathSegs b).isPrefixOf stableAliasSegs = false ∧
    stableAliasSegs.isPrefixOf (publishedPathSegs b) = false := by
  unfold publishedPathSegs stableAliasSegs
  constructor
  · rw [List.isPrefixOf_cons₂, List.isPrefixOf_cons₂, List.isPrefixOf_cons₂]
    simp [target_dir_name_ne_stable b]
  · rw [List.isPrefixOf_cons₂, List.isPrefixOf_cons₂, List.isPrefixOf_cons₂]
    simp [Ne.symm (target_dir_name_ne_stable b)]

/-!
### Claim C8 (confirmed)
-/

/-- C8: for every target whose pipeline runs to the publish step, the
publish step replaces `html/en/<target>` so that its contents equal the
freshly built output exactly — stale files from any prior state of the
destination do not survive (remove-then-copy, not merge); and when the
target is the resolved stable alias, `html/en/stable` is likewise replaced
with a full duplicate of the same content. -/
theorem C8_publish_replaces (bs : List RBranch) (b sb : RBranch)
    (tr co ve : Bool) (fs fs' : Fs) (steps : List Step)
    (hsb : stable_branch bs = some sb) (hbuild : should_build b = true)
    (hupd : branchUpdate bs b tr co ve fs = Except.ok (steps, fs')) :
    subtree (publishedPathSegs b) fs' = subtree (builtHtmlPathSegs b) fs ∧
    (b = sb → subtree stableAliasSegs fs' = subtree (builtHtmlPathSegs b) fs) := by
  obtain ⟨hbp1, hbp2⟩ := built_published_incomparable b
  obtain ⟨hba1, hba2⟩ := built_alias_incomparable b
  obtain ⟨hpa1, hpa2⟩ := published_alias_incomparable b
  by_cases hbsb : b = sb
  · subst hbsb
    rw [branchUpdate_build_stable bs b tr co ve fs hbuild hsb] at hupd
    simp only [Except.ok.injEq, Prod.mk.injEq] at hupd
    obtain ⟨-, hfs'⟩ := hupd
    subst hfs'
    constructor
    · rw [subtree_copy_docs_dir_other _ _ _ _ hpa2 hpa1]
      exact subtree_copy_docs_dir_self _ _ _ hbp1 hbp2
    · intro _
      rw [subtree_copy_docs_dir_self _ _ _ hba1 hba2]
      exact subtree_copy_docs_dir_other _ _ _ _ hbp2 hbp1
  · rw [branchUpdate_build_other bs b sb tr co ve fs hbuild hsb hbsb] at hupd
    simp only [Except.ok.injEq, Prod.mk.injEq] at hupd
    obtain ⟨-, hfs'⟩ := hupd
    subst hfs'
    exact ⟨subtree_copy_docs_dir_self _ _ _ hbp1 hbp2,
      fun hc => absurd hc hbsb⟩

/-- Witness for `C8_publish_replaces`: publishing the stable `1.2` branch
over a filesystem holding a stale page replaces both the versioned
directory and the alias directory with exactly the built output. -/
theorem C8_publish_replaces_witness :
    subtree (publishedPathSegs (RBranch.version ⟨"origin/stable/1.2.x", (1, 2)⟩))
        (copy_docs_dir
          (builtHtmlPathSegs (RBranch.version ⟨"origin/stable/1.2.x", (1, 2)⟩))
          stableAliasSegs
          (copy_docs_dir
            (builtHtmlPathSegs (RBranch.version ⟨"origin/stable/1.2.x", (1, 2)⟩))
            (publishedPathSegs (RBranch.version ⟨"origin/stable/1.2.x", (1, 2)⟩))
            [(["html", "en", "v1.2", "stale"], "old"),
             (["1.2", "docs", "_build", "html", "page"], "new")])) =
      subtree (builtHtmlPathSegs (RBranch.version ⟨"origin/stable/1.2.x", (1, 2)⟩))
        [(["html", "en", "v1.2", "stale"], "old"),
         (["1.2", "docs", "_build", "html", "page"], "new")] ∧
    (RBranch.version ⟨"origin/stable/1.2.x", (1, 2)⟩ =
        RBranch.version ⟨"origin/stable/1.2.x", (1, 2)⟩ →
      subtree stableAliasSegs
        (copy_docs_dir
          (builtHtmlPathSegs (RBranch.version ⟨"origin/stable/1.2.x", (1, 2)⟩))
          stableAliasSegs
          (copy_docs_dir
            (builtHtmlPathSegs (RBranch.version ⟨"origin/stable/1.2.x", (1, 2)⟩))
            (publishedPathSegs (RBranch.version ⟨"origin/stable/1.2.x", (1, 2)⟩))
            [(["html", "en", "v1.2", "stale"], "old"),
             (["1.2", "docs", "_build", "html", "page"], "new")])) =
      subtree (builtHtmlPathSegs (RBranch.version ⟨"origin/stable/1.2.x", (1, 2)⟩))
        [(["html", "en", "v1.2", "stale"], "old"),
         (["1.2", "docs", "_build", "html", "page"], "new")]) :=
  C8_publish_replaces
    [RBranch.version ⟨"origin/stable/1.2.x", (1, 2)⟩, RBranch.master]
    (RBranch.version ⟨"origin/stable/1.2.x", (1, 2)⟩)
    (RBranch.version ⟨"origin/stable/1.2.x", (1, 2)⟩) true true true
    [(["html", "en", "v1.2", "stale"], "old"),
     (["1.2", "docs", "_build", "html", "page"], "new")] _ _ rfl rfl rfl

/-!
### Claim C7 (confirmed)
-/

theorem update_manifest_inv (refs : List String) (sel : Option (List String))
    (tOf cOf vOf : RBranch → Bool) (fs : Fs) (bs p : List RBranch) (fs' : Fs)
    (m : String) (hb : remote_branches refs = Except.ok bs)
    (hu : update refs sel tOf cOf vOf fs = Except.ok (p, fs', m)) :
    m = versionsFileContent bs := by
  unfold update at hu
  rw [hb, Except_bind_ok] at hu
  cases hsel : selectList (stable_branch bs) (master_branch bs) sel bs with
  | error e =>
    rw [hsel, Except_bind_error] at hu
    exact absurd hu (by simp)
  | ok pr =>
    rw [hsel, Except_bind_ok] at hu
    cases hf : updateBranchesFs bs tOf cOf vOf fs pr with
    | error e =>
      rw [hf, Except_bind_error] at hu
      exact absurd hu (by simp)
    | ok fs2 =>
      rw [hf, Except_bind_ok] at hu
      simp only [Except.ok.injEq, Prod.mk.injEq] at hu
      exact hu.2.2.symm

theorem versionsList_shape (svs : List VBranch) :
    versionsList (svs.map RBranch.version ++ [RBranch.master]) =
      "latest" :: "stable" ::
        (((versionsOf (svs.map RBranch.version ++ [RBranch.master])).filter
            (fun vb => should_build (RBranch.version vb))).map
          (fun vb => target_dir_name (RBranch.version vb))).reverse := by
  have hvers : versionsOf (svs.map RBranch.version ++ [RBranch.master]) = svs := by
    unfold versionsOf
    rw [List.filterMap_append, List.filterMap_map]
    have hcomp : ((fun b : RBranch => match b with
        | RBranch.version vb => some vb
        | RBranch.master => none) ∘ RBranch.version) =
        (some : VBranch → Option VBranch) := rfl
    rw [hcomp, List.filterMap_some]
    simp
  rw [hvers]
  unfold versionsList
  rw [List.reverse_append]
  have hrev : ([RBranch.master].reverse ++ (svs.map RBranch.version).reverse) =
      RBranch.master :: (svs.map RBranch.version).reverse := rfl
  rw [hrev, List.filter_cons_of_pos (by simp [should_build]),
    List.filter_reverse, List.filter_map, List.map_cons, List.map_reverse,
    List.map_map]
  unfold pyInsert
  rfl

/-- C7: every run of `Environment.update` that completes rewrites the
manifest (`versions.js`) wholesale as a single assignment of a list of
strings — the target directory names of every buildable discovered branch
in reverse (newest-first) order (`latest` first, then the buildable version
lines newest-first), with the literal token `"stable"` inserted as the
second entry. -/
theorem C7_manifest_wholesale (refs : List String) (sel : Option (List String))
    (tOf cOf vOf : RBranch → Bool) (fs : Fs) (bs p : List RBranch) (fs' : Fs)
    (m : String) (hb : remote_branches refs = Except.ok bs)
    (hu : update refs sel tOf cOf vOf fs = Except.ok (p, fs', m)) :
    m = "VERSIONS = " ++ jsonRender ("latest" :: "stable" ::
      (((versionsOf bs).filter (fun vb => should_build (RBranch.version vb))).map
        (fun vb => target_dir_name (RBranch.version vb))).reverse) ++ ";\n" := by
  obtain ⟨svs, hbs, hsort, hperm, hm⟩ := remote_branches_shape hb
  have hcontent := update_manifest_inv refs sel tOf cOf vOf fs bs p fs' m hb hu
  rw [hcontent]
  unfold versionsFileContent
  rw [hbs, versionsList_shape svs]

/-- Witness for `C7_manifest_wholesale`: a completed run over the `1.2`
line plus trunk writes exactly `VERSIONS = ["latest", "stable", "v1.2"];`. -/
theorem C7_manifest_wholesale_witness :
    ("VERSIONS = [\"latest\", \"stable\", \"v1.2\"];\n" : String) =
      "VERSIONS = " ++ jsonRender ("latest" :: "stable" ::
        (((versionsOf [RBranch.version ⟨"origin/stable/1.2.x", (1, 2)⟩,
              RBranch.master]).filter
            (fun vb => should_build (RBranch.version vb))).map
          (fun vb => target_dir_name (RBranch.version vb))).reverse) ++ ";\n" :=
  C7_manifest_wholesale ["origin/stable/1.2.x", "origin/master"] none
    (fun _ => true) (fun _ => true) (fun _ => true) []
    [RBranch.version ⟨"origin/stable/1.2.x", (1, 2)⟩, RBranch.master]
    [RBranch.version ⟨"origin/stable/1.2.x", (1, 2)⟩, RBranch.master]
    [] "VERSIONS = [\"latest\", \"stable\", \"v1.2\"];\n" rfl rfl

/-!
### Claim C9 (confirmed)
-/

/-- C9: `Environment.create` is idempotent with respect to an existing base
path — when the path exists it only reports the skip, performing no
directory creation and no clone (existing content untouched); only when the
path does not exist does it create the directory and clone the trunk. -/
theorem C9_create_idempotent (repository_url : String) (path : Option String) :
    (create repository_url path true).2 = [CreateAction.reportSkip] ∧
    (∀ a ∈ (create repository_url path true).2,
      a ≠ CreateAction.makeDir ∧ ∀ u, a ≠ CreateAction.cloneRepo u) ∧
    (create repository_url path false).2 =
      [CreateAction.makeDir, CreateAction.cloneRepo repository_url] := by
  refine ⟨rfl, ?_, rfl⟩
  intro a ha
  have ha2 : a ∈ [CreateAction.reportSkip] := ha
  have ha' : a = CreateAction.reportSkip := by simpa using ha2
  subst ha'
  exact ⟨by simp, fun u => by simp⟩

/-- Witness for `C9_create_idempotent` at a concrete URL (with the default
derived path). -/
theorem C9_create_idempotent_witness :
    (create "https://github.com/wagtail/wagtail.git" none true).2 =
      [CreateAction.reportSkip] ∧
    (CreateAction.reportSkip ≠ CreateAction.makeDir ∧
      ∀ u, CreateAction.reportSkip ≠ CreateAction.cloneRepo u) ∧
    (create "https://github.com/wagtail/wagtail.git" none false).2 =
      [CreateAction.makeDir,
        CreateAction.cloneRepo "https://github.com/wagtail/wagtail.git"] :=
  ⟨(C9_create_idempotent "https://github.com/wagtail/wagtail.git" none).1,
    (C9_create_idempotent "https://github.com/wagtail/wagtail.git" none).2.1
      CreateAction.reportSkip (by decide),
    (C9_create_idempotent "https://github.com/wagtail/wagtail.git" none).2.2⟩

/-!
### Claim C10 (confirmed)
-/

/-- C10: `stable_branch` is the `[-2]` element of the discovered list, which
always ends with the trunk branch — with at least one stable-line ref it is
some stable-line branch (never the trunk), but with zero stable-line refs
the index access fails (modelled as `none`); consequently an update run
that builds only the trunk still fails with the `IndexError` at the publish
stage, where the branch is compared against the stable alias. -/
theorem C10_stable_index (refs : List String) (bs : List RBranch)
    (h : remote_branches refs = Except.ok bs) :
    ((∃ vb, RBranch.version vb ∈ bs) →
      ∃ sb : VBranch, stable_branch bs = some (RBranch.version sb)) ∧
    ((∀ vb : VBranch, RBranch.version vb ∉ bs) → stable_branch bs = none) ∧
    ((∀ vb : VBranch, RBranch.version vb ∉ bs) →
      ∀ tOf cOf vOf fs, update refs none tOf cOf vOf fs =
        Except.error "IndexError: list index out of range") := by
  obtain ⟨svs, hbs, hsort, hperm, hm⟩ := remote_branches_shape h
  have hnil : (∀ vb : VBranch, RBranch.version vb ∉ bs) →
      bs = [RBranch.master] := by
    intro hno
    have hsvs : svs = [] := by
      rcases hx : svs with _ | ⟨x, rest⟩
      · rfl
      · refine absurd ?_ (hno x)
        rw [hbs, hx]
        exact version_mem_iff.mpr (List.mem_cons_self x rest)
    rw [hbs, hsvs]
    rfl
  refine ⟨?_, ?_, ?_⟩
  · intro hv
    obtain ⟨vb0, hvb0⟩ := hv
    have hne : svs ≠ [] := by
      intro h0
      rw [hbs, h0] at hvb0
      simp at hvb0
    exact ⟨svs.getLast hne, by rw [hbs]; exact stable_branch_shape svs hne⟩
  · intro hno
    rw [hnil hno]
    rfl
  · intro hno tOf cOf vOf fs
    have hbs1 := hnil hno
    subst hbs1
    unfold update
    rw [h]
    rfl

/-- Witness for `C10_stable_index` at the trunk-only discovery. -/
theorem C10_stable_index_witness :
    stable_branch [RBranch.master] = none ∧
    update ["origin/master"] none (fun _ => true) (fun _ => true) (fun _ => true)
      [] = Except.error "IndexError: list index out of range" := by
  have h := C10_stable_index ["origin/master"] [RBranch.master] rfl
  have hno : ∀ vb : VBranch, RBranch.version vb ∉ [RBranch.master] := by
    intro vb hvb
    simp at hvb
  exact ⟨h.2.1 hno, h.2.2 hno (fun _ => true) (fun _ => true) (fun _ => true) []⟩

end Btfd
